import Mathlib

/-!
Shallow embedding of the BHIT TensorFlow notebook (src/notebook/tf_bhit.ipynb):
the likelihood engine (`logLikeCont`, `logLikeDisc`, `logLikeDepe`, `calcProb`)
and the Metropolis–Hastings partition sampler loop.

Modelling conventions:
* The log-gamma special function (`tf.lgamma`) is an external numeric library
  capability (spec §1 places the numeric substrate out of scope); it is
  modelled as an abstract parameter `lg : ℝ → ℝ`.  `tf.log` is `Real.log`,
  `PI` is `Real.pi`.
* A tensor of shape `[k, n]` is a `List` of `k` rows, each a `List` of `n`
  entries.  `tf.shape(t)[0]` is `rows.length`; `tf.shape(t)[1]` is the length
  of the first row.
* The per-column genotype strings built by `tf.reduce_join` / `tf.string_split`
  are represented directly by the tuples (`List ℕ`) of genotype codes: joining
  decimal codes with a space separator and re-splitting is a bijection, and
  `tf.unique_with_counts` on the joined strings is equivalent to taking the
  distinct code tuples with their multiplicities.
* Hyperparameters (`KAPPA0 = 1`, `sigma = 1` are hard-coded in the source;
  `NU0`, `MU0`, `MAF` are run-level globals) are passed as parameters
  `nu0 mu0 maf : ℝ`.
-/

/-- Hardy–Weinberg pseudo-count vector, from the source's
`Odds = np.array([(1-MAF)**2, 2*MAF*(1-MAF), MAF**2])`.  Indices other than
0, 1, 2 are unreachable through `tf.gather` on valid data (gather raises on an
out-of-range index); the `0` default is arbitrary junk for totality. -/
noncomputable def genotypeOdds (maf : ℝ) : ℕ → ℝ
  | 0 => (1 - maf) ^ 2
  | 1 => 2 * maf * (1 - maf)
  | 2 => maf ^ 2
  | _ => 0

/-- The genotype tuple of observation column `j` across the selected rows:
the column of `discTensor` that `tf.reduce_join(discTensor, 0)` turns into one
space-joined string. -/
def categoryAt (rows : List (List ℕ)) (j : ℕ) : List ℕ :=
  rows.map (fun r => r.getD j 0)

/-- All per-observation composite genotype categories, one per column
(`tf.reduce_join(discTensor, 0, separator=' ')` as a list of code tuples). -/
def categories (rows : List (List ℕ)) : List (List ℕ) :=
  (List.range (rows.headD []).length).map (categoryAt rows)

/-- First-occurrence deduplication: the unique elements returned by
`tf.unique_with_counts` (in order of first appearance). -/
def dedupFirst {α : Type} [DecidableEq α] : List α → List α
  | [] => []
  | a :: l => a :: (dedupFirst l).filter (fun b => b ≠ a)

/-- Dirichlet pseudo-count of one composite category: the source computes
`idx = string_to_number(split(category)) - 1` and then
`alpha = reduce_prod(gather(Odds, idx), axis=1)`, i.e. the product over the
selected rows of `Odds[code - 1]`. -/
noncomputable def categoryAlpha (maf : ℝ) (c : List ℕ) : ℝ :=
  (c.map (fun g => genotypeOdds maf (g - 1))).prod

/-- `logLikeDisc(discTensor)` from the source: collapsed Dirichlet-multinomial
log marginal likelihood over the distinct observed composite categories. -/
noncomputable def logLikeDisc (lg : ℝ → ℝ) (maf : ℝ) (rows : List (List ℕ)) : ℝ :=
  let cats := categories rows
  let uniq := dedupFirst cats
  (uniq.map (fun c =>
      lg ((cats.count c : ℝ) + categoryAlpha maf c) - lg (categoryAlpha maf c))).sum
    - lg ((uniq.map (fun c => categoryAlpha maf c + (cats.count c : ℝ))).sum)

/-- The source's `func1` branch of `logLikeCont`, which `tf.cond` evaluates
only when the tensor has exactly one row (so `tf.reduce_mean(contTensor)` is
that row's mean and the sums range over the row's entries).  `KAPPA0 = 1` and
`sigma = 1` as in the source. -/
noncomputable def contSingle (lg : ℝ → ℝ) (nu0 mu0 : ℝ) (r : List ℝ) : ℝ :=
  let n : ℝ := r.length
  let means : ℝ := r.sum / n
  let sigma : ℝ := 1
  let nuVar : ℝ := nu0 * sigma ^ 2 + (r.map (fun y => (y - means) ^ 2)).sum
      + 1 * (n / (1 + n) * (means - mu0) ^ 2)
  (-1 * Real.log (2 * Real.pi) * n / 2 + Real.log (1 / (1 + n)) / 2 + lg ((nu0 + n) / 2))
    + (-1 * lg (nu0 / 2) + Real.log (nu0 * sigma ^ 2 / 2) * nu0 / 2
        - Real.log (nuVar / 2) * (nu0 + n) / 2)

/-- `logLikeCont(contTensor)` from the source:
`tf.cond(tf.equal(varNum, 1), lambda: func1(), lambda: ZERO)` — the
multivariate `func2` is never wired into the returned graph node, so any
selection with a row count other than one yields `0`. -/
noncomputable def logLikeCont (lg : ℝ → ℝ) (nu0 mu0 : ℝ) (rows : List (List ℝ)) : ℝ :=
  if rows.length = 1 then contSingle lg nu0 mu0 (rows.headD []) else 0

/-- Columns of the continuous selection whose observation falls in composite
category `c` (the `gather(transpose(contTensor), where(equal(combined, elem)))`
selection inside `logLikeDepe`). -/
def contCols (cont : List (List ℝ)) (cats : List (List ℕ)) (c : List ℕ) :
    List (List ℝ) :=
  cont.map (fun r => ((r.zip cats).filter (fun p => p.2 = c)).map (fun p => p.1))

/-- `logLikeDepe(discTensor, contTensor)` from the source: sum of
`logLikeCont` over the column groups defined by the distinct composite
genotype categories, plus `logLikeDisc` of the discrete selection. -/
noncomputable def logLikeDepe (lg : ℝ → ℝ) (nu0 mu0 maf : ℝ) (disc : List (List ℕ))
    (cont : List (List ℝ)) : ℝ :=
  let cats := categories disc
  ((dedupFirst cats).map (fun c => logLikeCont lg nu0 mu0 (contCols cont cats c))).sum
    + logLikeDisc lg maf disc

/-- `calcProb(tensor1, tensor2)` from the source: `tf.case` over an
`OrderedDict` with `exclusive=False` runs the first predicate that holds, in
insertion order, with default `ZERO`. -/
noncomputable def calcProb (lg : ℝ → ℝ) (nu0 mu0 maf : ℝ) (disc : List (List ℕ))
    (cont : List (List ℝ)) : ℝ :=
  if 0 < disc.length ∧ 0 < cont.length then logLikeDepe lg nu0 mu0 maf disc cont
  else if 0 < disc.length then logLikeDisc lg maf disc
  else if 0 < cont.length then logLikeCont lg nu0 mu0 cont
  else 0

/-- `MU0 = tf.reduce_max(tf.reduce_mean(PhenoData, axis=1)) + 2`: the maximum
per-trait empirical mean plus 2 (`reduce_max` is undefined on an empty tensor;
the run always has at least one trait row). -/
noncomputable def hyperMU0 (pheno : List (List ℝ)) : ℝ :=
  match pheno.map (fun r => r.sum / (r.length : ℝ)) with
  | [] => 2
  | m :: ms => ms.foldl max m + 2

/-- Discrete rows of the cluster labelled `v`: the source slices
`Dx = index[:SNPNum]` and gathers the `GeneData` rows at positions where the
label equals `v`; zipping the gene rows with the assignment pairs row `p` with
`assign[p]` for `p < SNPNum`. -/
def discSel (gene : List (List ℕ)) (assign : List ℕ) (v : ℕ) :
    List (List ℕ) :=
  ((gene.zip assign).filter (fun p => p.2 = v)).map (fun p => p.1)

/-- Continuous rows of the cluster labelled `v`: the source slices
`Cx = index[SNPNum:TotalNum]` and gathers the `PhenoData` rows at positions
where the label equals `v`. -/
def contSel (pheno : List (List ℝ)) (snpNum : ℕ) (assign : List ℕ) (v : ℕ) :
    List (List ℝ) :=
  ((pheno.zip (assign.drop snpNum)).filter (fun p => p.2 = v)).map (fun p => p.1)

/-- Score of labels `x` and `y` under one assignment: the source's
`calcProb(Dxx, Cxx) + calcProb(Dxy, Cxy)` (and likewise `pY` with `index2`). -/
noncomputable def scoreOf (lg : ℝ → ℝ) (nu0 mu0 maf : ℝ) (gene : List (List ℕ))
    (pheno : List (List ℝ)) (assign : List ℕ) (x y : ℕ) : ℝ :=
  calcProb lg nu0 mu0 maf (discSel gene assign x) (contSel pheno gene.length assign x)
    + calcProb lg nu0 mu0 maf (discSel gene assign y) (contSel pheno gene.length assign y)

/-- One evaluation of the graph node `res`: `accept = tf.log(u) <=
tf.minimum(ZERO, pY - pX)` and `res = tf.cond(accept, index2, index1)`. -/
noncomputable def samplerRes (lg : ℝ → ℝ) (nu0 mu0 maf : ℝ)
    (gene : List (List ℕ)) (pheno : List (List ℝ)) (Ix Iy : List ℕ)
    (x y : ℕ) (u : ℝ) : List ℕ :=
  let pX := scoreOf lg nu0 mu0 maf gene pheno Ix x y
  let pY := scoreOf lg nu0 mu0 maf gene pheno Iy x y
  if Real.log u ≤ min 0 (pY - pX) then Iy else Ix

/-- The retry-loop exit test: `len(tmp1) != 1 or len(tmp2) != 1` with
`tmp1 = np.where(Ix == x)[0]` and `tmp2 = np.where(Iy == y)[0]`. -/
def exitCond (Ix Iy : List ℕ) (x y : ℕ) : Bool :=
  Ix.count x != 1 || Iy.count y != 1

/-- Sorting a drawn pair: `np.sort(np.random.choice(Ix, 2, False))`. -/
def sortPair (p : ℕ × ℕ) : ℕ × ℕ :=
  if p.1 ≤ p.2 then p else (p.2, p.1)

/-- Number of ordered pairs of distinct positions `(i, j)` of `l` whose
(sorted) pair of labels is `p`: `np.random.choice(l, 2, replace=False)`
followed by `np.sort` draws uniformly among these `len(l)·(len(l)-1)`
position pairs. -/
def drawCount (l : List ℕ) (p : ℕ × ℕ) : ℕ :=
  (((Finset.range l.length) ×ˢ (Finset.range l.length)).filter
    (fun ij => ij.1 ≠ ij.2 ∧ sortPair (l.getD ij.1 0, l.getD ij.2 0) = p)).card

/-- Probability that the sorted drawn pair equals `p` under the source's
position-based draw. -/
def codePairProb (l : List ℕ) (p : ℕ × ℕ) : ℚ :=
  (drawCount l p : ℚ) / ((l.length : ℚ) * ((l.length : ℚ) - 1))

/-- Modelled from the spec's words (claim C5): two *distinct label values*
drawn uniformly without replacement from the *set* of label values present in
the assignment — every unordered pair of distinct present labels equally
likely, reported sorted. -/
def specPairProb (l : List ℕ) (p : ℕ × ℕ) : ℚ :=
  if p.1 < p.2 ∧ p.1 ∈ l ∧ p.2 ∈ l then 1 / (Nat.choose l.toFinset.card 2 : ℚ)
  else 0

/-- Modelled from the spec's words (claim C4): pseudo-count as the product of
`genotypeOdds` indexed directly by each row's genotype code (no `- 1`). -/
noncomputable def categoryAlphaClaim (maf : ℝ) (c : List ℕ) : ℝ :=
  (c.map (fun g => genotypeOdds maf g)).prod

/-- Assignments reachable by the sampler loop: start from the identity
assignment `np.arange(TotalNum)`; each iteration draws two distinct positions
`i ≠ j`, sorts their labels into `x = min`, `y = max`, picks a position `k`
bearing `x`, forms the proposal `Iy = Ix.set k y`, requires the retry-loop
exit test, and commits `Iy` or keeps `Ix` according to the Metropolis draw
(over-approximated here by an arbitrary `accept : Bool`, since the invariants
hold for both outcomes). -/
inductive SamplerReach (N : ℕ) : List ℕ → Prop where
  | init : SamplerReach N (List.range N)
  | step (Ix : List ℕ) (i j k : ℕ) (accept : Bool)
      (hreach : SamplerReach N Ix)
      (hi : i < Ix.length) (hj : j < Ix.length) (hij : i ≠ j)
      (hk : k < Ix.length)
      (hkx : Ix.getD k 0 = min (Ix.getD i 0) (Ix.getD j 0))
      (hexit : exitCond Ix (Ix.set k (max (Ix.getD i 0) (Ix.getD j 0)))
          (min (Ix.getD i 0) (Ix.getD j 0)) (max (Ix.getD i 0) (Ix.getD j 0)) = true) :
      SamplerReach N
        (if accept then Ix.set k (max (Ix.getD i 0) (Ix.getD j 0)) else Ix)

/-! ### Helper lemmas -/

lemma mem_dedupFirst {α : Type} [DecidableEq α] {a : α} :
    ∀ {l : List α}, a ∈ dedupFirst l ↔ a ∈ l
  | [] => by simp [dedupFirst]
  | b :: l => by
    by_cases hab : a = b
    · subst hab; simp [dedupFirst]
    · simp [dedupFirst, List.mem_filter, hab, mem_dedupFirst (l := l)]

lemma nodup_dedupFirst {α : Type} [DecidableEq α] :
    ∀ (l : List α), (dedupFirst l).Nodup
  | [] => by simp [dedupFirst]
  | b :: l => by
    rw [dedupFirst, List.nodup_cons]
    refine ⟨fun hmem => ?_, (nodup_dedupFirst l).filter _⟩
    have := (List.mem_filter.mp hmem).2
    simp at this

lemma toFinset_dedupFirst {α : Type} [DecidableEq α] (l : List α) :
    (dedupFirst l).toFinset = l.toFinset := by
  ext a; simp [List.mem_toFinset, mem_dedupFirst]

lemma sum_map_dedupFirst {α : Type} [DecidableEq α] (l : List α) (f : α → ℝ) :
    ((dedupFirst l).map f).sum = l.toFinset.sum f := by
  rw [← List.sum_toFinset f (nodup_dedupFirst l), toFinset_dedupFirst]

/-- Unfolding `logLikeDisc` into sums over the finite set of distinct observed
composite categories. -/
lemma logLikeDisc_finset (lg : ℝ → ℝ) (maf : ℝ) (rows : List (List ℕ)) :
    logLikeDisc lg maf rows =
      (categories rows).toFinset.sum (fun c =>
        lg (((categories rows).count c : ℝ) + categoryAlpha maf c)
          - lg (categoryAlpha maf c))
      - lg ((categories rows).toFinset.sum (fun c =>
        categoryAlpha maf c + ((categories rows).count c : ℝ))) := by
  simp only [logLikeDisc]
  rw [sum_map_dedupFirst, sum_map_dedupFirst]

/-! ### Claim theorems (part 1) -/

/-- C1: for every continuous-only selection with two or more rows,
`logLikeCont` returns exactly 0 (the multivariate Normal-Inverse-Wishart
branch is never propagated out of the function), and a selection of zero rows
also returns 0. -/
theorem logLikeCont_nonsingle_zero (lg : ℝ → ℝ) (nu0 mu0 : ℝ) (r1 r2 : List ℝ)
    (rest : List (List ℝ)) :
    logLikeCont lg nu0 mu0 (r1 :: r2 :: rest) = 0 ∧ logLikeCont lg nu0 mu0 [] = 0 := by
  refine ⟨?_, ?_⟩ <;> simp [logLikeCont]

/-- C2: `calcProb` dispatches by emptiness of its two inputs — both non-empty
gives `logLikeDepe`, only the discrete selection non-empty gives
`logLikeDisc`, only the continuous selection non-empty gives `logLikeCont`,
and (for every dataset, i.e. all hyperparameters) both empty gives 0. -/
theorem calcProb_dispatch (lg : ℝ → ℝ) (nu0 mu0 maf : ℝ) (d : List ℕ)
    (ds : List (List ℕ)) (c : List ℝ) (cs : List (List ℝ)) :
    calcProb lg nu0 mu0 maf (d :: ds) (c :: cs) = logLikeDepe lg nu0 mu0 maf (d :: ds) (c :: cs)
    ∧ calcProb lg nu0 mu0 maf (d :: ds) [] = logLikeDisc lg maf (d :: ds)
    ∧ calcProb lg nu0 mu0 maf [] (c :: cs) = logLikeCont lg nu0 mu0 (c :: cs)
    ∧ calcProb lg nu0 mu0 maf [] [] = 0 := by
  refine ⟨?_, ?_, ?_, ?_⟩ <;> simp [calcProb]

/-- C3: in each sampler iteration the proposal `Iy` is committed exactly when
`log u ≤ min 0 (scoreAfter - scoreBefore)`, where `scoreBefore` is the sum of
`calcProb` over the members of labels `x` and `y` under the current assignment
`Ix` and `scoreAfter` is the same sum under the proposed assignment `Iy`;
otherwise the current assignment `Ix` is kept unchanged. -/
theorem sampler_accept_rule (lg : ℝ → ℝ) (nu0 mu0 maf : ℝ)
    (gene : List (List ℕ)) (pheno : List (List ℝ)) (Ix Iy : List ℕ)
    (x y : ℕ) (u : ℝ) :
    samplerRes lg nu0 mu0 maf gene pheno Ix Iy x y u =
      if Real.log u ≤ min 0
          ((calcProb lg nu0 mu0 maf (discSel gene Iy x) (contSel pheno gene.length Iy x)
              + calcProb lg nu0 mu0 maf (discSel gene Iy y) (contSel pheno gene.length Iy y))
            - (calcProb lg nu0 mu0 maf (discSel gene Ix x) (contSel pheno gene.length Ix x)
              + calcProb lg nu0 mu0 maf (discSel gene Ix y) (contSel pheno gene.length Ix y)))
      then Iy else Ix := rfl

/-- C7: for a single continuous row of `n` values, `logLikeCont` returns
`-n/2·log(2π) + ½·log(kappa0/(kappa0+n)) + lgamma((nu0+n)/2) - lgamma(nu0/2)
 + (nu0/2)·log(nu0·sigma0²/2) - ((nu0+n)/2)·log(nuVar/2)` with
`nuVar = nu0·sigma0² + Σ(y-ȳ)² + kappa0·(n/(kappa0+n))·(ȳ-mu0)²`, where
`kappa0 = 1`, `sigma0 = 1`, `nu0 = traitCount + 1` and `mu0` is the maximum
per-trait empirical mean plus 2. -/
theorem logLikeCont_single_formula (lg : ℝ → ℝ) (pheno : List (List ℝ))
    (r : List ℝ) :
    logLikeCont lg ((pheno.length : ℝ) + 1) (hyperMU0 pheno) [r] =
      -((r.length : ℝ) / 2) * Real.log (2 * Real.pi)
      + (1 / 2) * Real.log (1 / (1 + (r.length : ℝ)))
      + lg (((pheno.length : ℝ) + 1 + (r.length : ℝ)) / 2)
      - lg (((pheno.length : ℝ) + 1) / 2)
      + (((pheno.length : ℝ) + 1) / 2) * Real.log (((pheno.length : ℝ) + 1) * 1 ^ 2 / 2)
      - (((pheno.length : ℝ) + 1 + (r.length : ℝ)) / 2) *
          Real.log ((((pheno.length : ℝ) + 1) * 1 ^ 2
            + (r.map (fun y => (y - r.sum / (r.length : ℝ)) ^ 2)).sum
            + 1 * ((r.length : ℝ) / (1 + (r.length : ℝ)))
                * (r.sum / (r.length : ℝ) - hyperMU0 pheno) ^ 2) / 2) := by
  have h : logLikeCont lg ((pheno.length : ℝ) + 1) (hyperMU0 pheno) [r]
      = contSingle lg ((pheno.length : ℝ) + 1) (hyperMU0 pheno) r := by
    simp [logLikeCont]
  rw [h]
  simp only [contSingle, one_mul]
  ring_nf
  ring

lemma getD_mem {l : List ℕ} {i : ℕ} (hi : i < l.length) : l.getD i 0 ∈ l := by
  rw [List.getD_eq_getElem _ _ hi]
  exact List.getElem_mem hi

lemma getD_set_self {l : List ℕ} {k v : ℕ} (hk : k < l.length) :
    (l.set k v).getD k 0 = v := by
  rw [List.getD_eq_getElem _ _ (by simpa using hk)]
  simp

lemma getD_set_ne {l : List ℕ} {k p v : ℕ} (hne : p ≠ k) :
    (l.set k v).getD p 0 = l.getD p 0 := by
  by_cases hp : p < l.length
  · rw [List.getD_eq_getElem _ _ (by simpa using hp), List.getD_eq_getElem _ _ hp]
    exact List.getElem_set_ne (fun h => hne h.symm) (by simpa using hp)
  · have h1 : l.length ≤ p := Nat.le_of_not_lt hp
    rw [List.getD_eq_default _ _ (by simpa using h1), List.getD_eq_default _ _ h1]

lemma count_set_succ : ∀ (l : List ℕ) (k y : ℕ), k < l.length → l.getD k 0 ≠ y →
    (l.set k y).count y = l.count y + 1
  | [], k, y, hk, _ => by simp at hk
  | a :: l, 0, y, _, hne => by
    have ha : a ≠ y := by simpa [List.getD] using hne
    simp [List.count_cons, ha]
  | a :: l, k + 1, y, hk, hne => by
    have hk' : k < l.length := by simpa using hk
    have hne' : l.getD k 0 ≠ y := by simpa [List.getD] using hne
    simp only [List.set, List.count_cons, count_set_succ l k y hk' hne']
    omega

lemma count_pos_of_mem {l : List ℕ} {y : ℕ} (h : y ∈ l) : 1 ≤ l.count y :=
  List.count_pos_iff.mpr h

lemma samplerReach_bounds {N : ℕ} {l : List ℕ} (h : SamplerReach N l) :
    l.length = N ∧ ∀ v ∈ l, v < N := by
  induction h with
  | init => exact ⟨by simp, fun v hv => List.mem_range.mp hv⟩
  | step Ix i j k accept hreach hi hj hij hk hkx hexit ih =>
    obtain ⟨hlen, hmem⟩ := ih
    cases accept with
    | false => simpa using ⟨hlen, hmem⟩
    | true =>
      simp only [if_pos]
      refine ⟨by simpa using hlen, fun v hv => ?_⟩
      rcases List.mem_or_eq_of_mem_set hv with h1 | h1
      · exact hmem v h1
      · subst h1
        exact max_lt (hmem _ (getD_mem hi)) (hmem _ (getD_mem hj))

lemma samplerReach_ge {N : ℕ} {l : List ℕ} (h : SamplerReach N l) :
    ∀ i, i < l.length → i ≤ l.getD i 0 := by
  induction h with
  | init =>
    intro i hi
    have hi' : i < (List.range N).length := hi
    rw [List.getD_eq_getElem _ _ hi']
    simp
  | step Ix i j k accept hreach hi hj hij hk hkx hexit ih =>
    cases accept with
    | false => simpa using ih
    | true =>
      simp only [if_pos]
      intro p hp
      have hp' : p < Ix.length := by simpa using hp
      by_cases hpk : p = k
      · subst hpk
        rw [getD_set_self hp']
        calc p ≤ Ix.getD p 0 := ih p hp'
          _ = min (Ix.getD i 0) (Ix.getD j 0) := hkx
          _ ≤ max (Ix.getD i 0) (Ix.getD j 0) := min_le_max
      · rw [getD_set_ne hpk]
        exact ih p hp'

/-- The assignment `[1, 1]` is reachable in one accepted move from the
identity assignment on two variables (draw positions 0 and 1, labels sorted
to `x = 0`, `y = 1`, relabel position 0, accept). -/
lemma samplerReach_pair : SamplerReach 2 [1, 1] := by
  have h0 : SamplerReach 2 (List.range 2) := SamplerReach.init
  have h := SamplerReach.step (List.range 2) 0 1 0 true h0
    (by decide) (by decide) (by decide) (by decide) (by decide) (by decide)
  exact (by decide :
    (if true then (List.range 2).set 0
        (max ((List.range 2).getD 0 0) ((List.range 2).getD 1 0))
      else List.range 2) = [1, 1]) ▸ h

/-! ### Claim theorems (part 2): sampler invariants and retry loop -/

/-- C9: every assignment reachable by the sampler loop (starting from the
identity assignment) has length `totalVariableCount` and all its labels lie
in `[0, totalVariableCount)`; in particular this holds for the final output
assignment. -/
theorem sampler_assignment_bounds {N : ℕ} {l : List ℕ} (h : SamplerReach N l) :
    l.length = N ∧ ∀ v ∈ l, v < N :=
  samplerReach_bounds h

/-- Witness for C9 at the spec's end-to-end scenario size `N = 5`. -/
theorem sampler_assignment_bounds_witness :
    (List.range 5).length = 5 ∧ ∀ v ∈ List.range 5, v < 5 :=
  sampler_assignment_bounds SamplerReach.init

/-- C10 (amended): because the two drawn labels are sorted so that `x ≤ y`
and a position bearing `x` is relabelled to `y`, no position's label ever
decreases, and `assignment[i] ≥ i` holds at every step starting from the
identity assignment. -/
theorem sampler_labels_ge_position {N : ℕ} {l : List ℕ} (h : SamplerReach N l) :
    ∀ i, i < l.length → i ≤ l.getD i 0 :=
  samplerReach_ge h

/-- Witness for C10 at the reachable state `[1, 1]`. -/
theorem sampler_labels_ge_position_witness :
    SamplerReach 2 [1, 1] ∧ 1 < ([1, 1] : List ℕ).length
      ∧ 1 ≤ ([1, 1] : List ℕ).getD 1 0 :=
  ⟨samplerReach_pair, by decide,
    sampler_labels_ge_position samplerReach_pair 1 (by decide)⟩

/-- Counterexample for C10 as stated: from the reachable assignment `[1, 1]`
the draw of positions 0 and 1 gives the sorted label pair `x = y = 1` (not
`x < y`), position 0 bears `x`, the retry-loop exit test holds, and the
proposal `Ix.set 0 y` equals the current assignment — so this proposal does
not assign a strictly larger label and does not differ from the current
assignment in exactly one position. -/
theorem sampler_proposal_noop_cx :
    SamplerReach 2 [1, 1] ∧
    sortPair (([1, 1] : List ℕ).getD 0 0, ([1, 1] : List ℕ).getD 1 0) = (1, 1) ∧
    ([1, 1] : List ℕ).getD 0 0 = 1 ∧
    ([1, 1] : List ℕ).set 0 1 = [1, 1] ∧
    exitCond [1, 1] (([1, 1] : List ℕ).set 0 1) 1 1 = true :=
  ⟨samplerReach_pair, by decide, by decide, by decide, by decide⟩

/-- C6 (amended): the retry loop exits exactly when it is not the case that
label `x` has exactly one bearer in the current assignment and label `y` has
exactly one bearer in the proposal; moreover, since `y` is drawn among the
labels present in the current assignment, every proposal relabelling a
bearer of `x ≠ y` to `y` gives `y` at least two bearers in the proposal, so
the exit test always holds — in particular a move between two singleton
clusters is presented to the scoring step. -/
theorem retryExit_iff (Ix Iy : List ℕ) (x y : ℕ) :
    (exitCond Ix Iy x y = true ↔ ¬(Ix.count x = 1 ∧ Iy.count y = 1)) ∧
    (∀ k, k < Ix.length → Ix.getD k 0 = x → y ∈ Ix → x ≠ y →
      exitCond Ix (Ix.set k y) x y = true) := by
  constructor
  · simp only [exitCond, Bool.or_eq_true, bne_iff_ne, ne_eq]
    tauto
  · intro k hk hkx hy hxy
    have hne : Ix.getD k 0 ≠ y := by rw [hkx]; exact hxy
    have hcnt : (Ix.set k y).count y = Ix.count y + 1 := count_set_succ Ix k y hk hne
    have hpos : 1 ≤ Ix.count y := count_pos_of_mem hy
    simp only [exitCond, Bool.or_eq_true, bne_iff_ne, ne_eq]
    right
    omega

/-- Witness for C6 at the concrete two-singleton assignment `[0, 1]`. -/
theorem retryExit_iff_witness :
    exitCond [0, 1] (([0, 1] : List ℕ).set 0 1) 0 1 = true ∧
    (exitCond [0, 1] [1, 1] 0 1 = true ↔
      ¬(([0, 1] : List ℕ).count 0 = 1 ∧ ([1, 1] : List ℕ).count 1 = 1)) :=
  ⟨(retryExit_iff [0, 1] ([0, 1].set 0 1) 0 1).2 0 (by decide) (by decide)
      (by decide) (by decide),
    (retryExit_iff [0, 1] [1, 1] 0 1).1⟩

/-- Counterexample for C6 as stated: in `[0, 1]` both `x = 0` and `y = 1`
are singleton clusters, yet the retry-loop exit test accepts the move that
relabels the bearer of `x` to `y`, so a move between two singleton clusters
is presented to the scoring step. -/
theorem retryExit_singletons_cx :
    ([0, 1] : List ℕ).count 0 = 1 ∧ ([0, 1] : List ℕ).count 1 = 1 ∧
    exitCond [0, 1] (([0, 1] : List ℕ).set 0 1) 0 1 = true := by
  decide

/-! ### Claim theorems (part 3): discrete likelihood formula -/

/-- C4 (amended): on a non-empty discrete selection whose genotype codes lie
in `{1, 2, 3}`, `logLikeDisc` returns
`Σ_c [lgamma(n_c + α_c) − lgamma(α_c)] − lgamma(Σ_c (n_c + α_c))` over the
distinct composite genotype categories actually observed, where `n_c` counts
the observations in category `c` and `α_c` is the product, over the selected
rows, of `genotypeOdds` indexed by that row's genotype code *minus one*. -/
theorem logLikeDisc_formula (lg : ℝ → ℝ) (maf : ℝ) (rows : List (List ℕ))
    (_hne : rows ≠ []) (_hcodes : ∀ r ∈ rows, ∀ g ∈ r, 1 ≤ g ∧ g ≤ 3) :
    logLikeDisc lg maf rows =
      (categories rows).toFinset.sum (fun c =>
        lg (((categories rows).count c : ℝ)
            + (c.map (fun g => genotypeOdds maf (g - 1))).prod)
          - lg ((c.map (fun g => genotypeOdds maf (g - 1))).prod))
      - lg ((categories rows).toFinset.sum (fun c =>
          ((categories rows).count c : ℝ)
            + (c.map (fun g => genotypeOdds maf (g - 1))).prod)) := by
  have h := logLikeDisc_finset lg maf rows
  simpa [categoryAlpha, add_comm] using h

/-- Witness for C4 on a concrete two-row selection with codes in `{1, 2}`. -/
theorem logLikeDisc_formula_witness :
    ([[1, 2], [2, 2]] ≠ ([] : List (List ℕ))
      ∧ ∀ r ∈ [[1, 2], [2, 2]], ∀ g ∈ r, 1 ≤ g ∧ g ≤ 3)
    ∧ logLikeDisc id (1 / 2) [[1, 2], [2, 2]] =
      (categories [[1, 2], [2, 2]]).toFinset.sum (fun c =>
        id (((categories [[1, 2], [2, 2]]).count c : ℝ)
            + (c.map (fun g => genotypeOdds (1 / 2) (g - 1))).prod)
          - id ((c.map (fun g => genotypeOdds (1 / 2) (g - 1))).prod))
      - id ((categories [[1, 2], [2, 2]]).toFinset.sum (fun c =>
          ((categories [[1, 2], [2, 2]]).count c : ℝ)
            + (c.map (fun g => genotypeOdds (1 / 2) (g - 1))).prod)) :=
  ⟨⟨by decide, by decide⟩, logLikeDisc_formula id (1 / 2) _ (by decide) (by decide)⟩

/-- Counterexample for C4 as stated: indexing `genotypeOdds` directly by the
genotype code (instead of code − 1) changes the value of `logLikeDisc` on the
one-row, one-observation selection `[[1]]` (with `lgamma` instantiated to
`id` and `MAF = 1/2`): the source yields `-(1-1/2)² = -1/4`, the claimed
formula `-2·(1/2)·(1-1/2) = -1/2`. -/
theorem logLikeDisc_claim_alpha_cx :
    logLikeDisc id (1 / 2) [[1]] ≠
      (categories [[1]]).toFinset.sum (fun c =>
        id (((categories [[1]]).count c : ℝ)
            + (c.map (fun g => genotypeOdds (1 / 2) g)).prod)
          - id ((c.map (fun g => genotypeOdds (1 / 2) g)).prod))
      - id ((categories [[1]]).toFinset.sum (fun c =>
          ((categories [[1]]).count c : ℝ)
            + (c.map (fun g => genotypeOdds (1 / 2) g)).prod)) := by
  norm_num [logLikeDisc, categories, categoryAt, dedupFirst, categoryAlpha,
    genotypeOdds, (show List.range 1 = [0] from rfl), List.count_cons, List.count_nil,
    List.toFinset_cons, List.toFinset_nil, Finset.sum_singleton]

lemma card_filter_getD : ∀ (l : List ℕ) (a : ℕ),
    ((Finset.range l.length).filter (fun i => l.getD i 0 = a)).card = l.count a
  | [], a => by simp
  | x :: t, a => by
    rw [Finset.card_filter, List.length_cons, Finset.sum_range_succ']
    simp only [List.getD_cons_succ, List.getD_cons_zero]
    rw [← Finset.card_filter, card_filter_getD t a, List.count_cons]
    congr 1
    by_cases hxa : x = a
    · subst hxa; simp
    · simp [hxa, beq_iff_eq, Ne.symm hxa]

lemma drawCount_eq (l : List ℕ) (a b : ℕ) (hab : a ≤ b) :
    drawCount l (a, b) =
      if a < b then 2 * (l.count a * l.count b)
      else l.count a * (l.count a - 1) := by
  rcases Nat.lt_or_ge a b with hlt | hge
  · rw [if_pos hlt]
    have hset : ((Finset.range l.length ×ˢ Finset.range l.length).filter
          (fun ij => ij.1 ≠ ij.2 ∧ sortPair (l.getD ij.1 0, l.getD ij.2 0) = (a, b)))
        = ((Finset.range l.length).filter (fun i => l.getD i 0 = a))
            ×ˢ ((Finset.range l.length).filter (fun i => l.getD i 0 = b))
          ∪ ((Finset.range l.length).filter (fun i => l.getD i 0 = b))
            ×ˢ ((Finset.range l.length).filter (fun i => l.getD i 0 = a)) := by
      ext ij
      simp only [Finset.mem_filter, Finset.mem_union, Finset.mem_product]
      constructor
      · rintro ⟨hmem, _hne, hsort⟩
        by_cases hle : l.getD ij.1 0 ≤ l.getD ij.2 0
        · rw [sortPair, if_pos hle] at hsort
          exact Or.inl ⟨⟨hmem.1, congrArg Prod.fst hsort⟩,
            ⟨hmem.2, congrArg Prod.snd hsort⟩⟩
        · rw [sortPair, if_neg hle] at hsort
          exact Or.inr ⟨⟨hmem.1, congrArg Prod.snd hsort⟩,
            ⟨hmem.2, congrArg Prod.fst hsort⟩⟩
      · rintro (⟨⟨hm1, h1⟩, hm2, h2⟩ | ⟨⟨hm1, h1⟩, hm2, h2⟩)
        · refine ⟨⟨hm1, hm2⟩, fun hij => ?_, ?_⟩
          · rw [hij, h2] at h1; exact absurd h1 (Ne.symm (Nat.ne_of_lt hlt))
          · rw [sortPair, h1, h2, if_pos hab]
        · refine ⟨⟨hm1, hm2⟩, fun hij => ?_, ?_⟩
          · rw [hij, h2] at h1; exact absurd h1 (Nat.ne_of_lt hlt)
          · rw [sortPair, h1, h2, if_neg (Nat.not_le.mpr hlt)]
    have hdisj : Disjoint
        (((Finset.range l.length).filter (fun i => l.getD i 0 = a))
          ×ˢ ((Finset.range l.length).filter (fun i => l.getD i 0 = b)))
        (((Finset.range l.length).filter (fun i => l.getD i 0 = b))
          ×ˢ ((Finset.range l.length).filter (fun i => l.getD i 0 = a))) := by
      rw [Finset.disjoint_left]
      rintro ij h1 h2
      rw [Finset.mem_product, Finset.mem_filter, Finset.mem_filter] at h1 h2
      rw [h1.1.2] at h2
      exact absurd h2.1.2 (Nat.ne_of_lt hlt)
    rw [drawCount, hset, Finset.card_union_of_disjoint hdisj,
      Finset.card_product, Finset.card_product, card_filter_getD,
      card_filter_getD]
    ring
  · have hba : a = b := Nat.le_antisymm hab hge
    subst hba
    rw [if_neg (lt_irrefl a)]
    have hset : ((Finset.range l.length ×ˢ Finset.range l.length).filter
          (fun ij => ij.1 ≠ ij.2 ∧ sortPair (l.getD ij.1 0, l.getD ij.2 0) = (a, a)))
        = ((Finset.range l.length).filter (fun i => l.getD i 0 = a)).offDiag := by
      ext ij
      simp only [Finset.mem_filter, Finset.mem_offDiag, Finset.mem_product]
      constructor
      · rintro ⟨hmem, hne, hsort⟩
        by_cases hle : l.getD ij.1 0 ≤ l.getD ij.2 0
        · rw [sortPair, if_pos hle] at hsort
          exact ⟨⟨hmem.1, congrArg Prod.fst hsort⟩,
            ⟨hmem.2, congrArg Prod.snd hsort⟩, hne⟩
        · rw [sortPair, if_neg hle] at hsort
          exact ⟨⟨hmem.1, congrArg Prod.snd hsort⟩,
            ⟨hmem.2, congrArg Prod.fst hsort⟩, hne⟩
      · rintro ⟨⟨hm1, h1⟩, ⟨hm2, h2⟩, hne⟩
        exact ⟨⟨hm1, hm2⟩, hne, by rw [sortPair, h1, h2, if_pos le_rfl]⟩
    rw [drawCount, hset, Finset.offDiag_card, card_filter_getD]
    cases hc : l.count a with
    | zero => simp
    | succ m => rw [Nat.succ_sub_one, Nat.mul_succ, Nat.add_sub_cancel]

/-! ### Claim theorems (part 4): the label draw -/

/-- C5 (amended): the sorted pair `(x, y)` is produced by drawing two
*distinct positions* of the assignment uniformly without replacement and
sorting their labels, so each outcome is weighted by bearer counts:
a pair `a < b` has probability `2·count(a)·count(b) / (n·(n-1))` and a
coincident pair `a = b` (possible when a label has several bearers) has
probability `count(a)·(count(a)-1) / (n·(n-1))`. -/
theorem drawPair_weighted (l : List ℕ) (a b : ℕ) (hab : a ≤ b) :
    codePairProb l (a, b) =
      ((if a < b then 2 * (l.count a * l.count b)
        else l.count a * (l.count a - 1) : ℕ) : ℚ)
      / ((l.length : ℚ) * ((l.length : ℚ) - 1)) := by
  rw [codePairProb, drawCount_eq l a b hab]

/-- Witness for C5 on the assignment `[0, 0, 1]`. -/
theorem drawPair_weighted_witness :
    (0 : ℕ) ≤ 1 ∧ codePairProb [0, 0, 1] (0, 1) =
      ((if 0 < 1 then 2 * (([0, 0, 1] : List ℕ).count 0 * ([0, 0, 1] : List ℕ).count 1)
        else ([0, 0, 1] : List ℕ).count 0 * (([0, 0, 1] : List ℕ).count 0 - 1) : ℕ) : ℚ)
      / ((([0, 0, 1] : List ℕ).length : ℚ) * ((([0, 0, 1] : List ℕ).length : ℚ) - 1)) :=
  ⟨by decide, drawPair_weighted [0, 0, 1] 0 1 (by decide)⟩

/-- Counterexample for C5 as stated: on the assignment `[0, 0, 1]` the
source's draw returns the coincident pair `(0, 0)` with probability `1/3`
(the two drawn labels are not necessarily distinct, and outcomes are weighted
by bearer counts), whereas drawing uniformly from the *set* of present label
values would give it probability `0`. -/
theorem drawPair_uniform_cx :
    codePairProb [0, 0, 1] (0, 0) = 1 / 3 ∧ specPairProb [0, 0, 1] (0, 0) = 0 := by
  constructor
  · have h : drawCount [0, 0, 1] (0, 0) = 2 := by decide
    rw [codePairProb, h]
    norm_num
  · norm_num [specPairProb]

/-! ### Row-permutation invariance of the discrete likelihood -/

lemma getD_map {α β : Type} (f : α → β) (l : List α) (i : ℕ) (hi : i < l.length)
    (d : β) : (l.map f).getD i d = f (l.get ⟨i, hi⟩) := by
  rw [List.getD_eq_getElem _ _ (by simpa using hi)]
  simp

lemma getD_ofFn {α : Type} {n : ℕ} (f : Fin n → α) (i : ℕ) (hi : i < n) (d : α) :
    (List.ofFn f).getD i d = f ⟨i, hi⟩ := by
  rw [List.getD_eq_getElem _ _ (by simpa using hi)]
  simp [List.getElem_ofFn]

lemma prod_map_getD (t : List ℕ) (g : ℕ → ℝ) :
    (t.map g).prod = ∏ i : Fin t.length, g (t.getD i.val 0) := by
  induction t with
  | nil => simp
  | cons a t ih =>
    rw [List.map_cons, List.prod_cons, ih, List.length_cons, Fin.prod_univ_succ]
    simp

lemma headD_width (rows : List (List ℕ)) (m : ℕ)
    (hrect : ∀ r ∈ rows, r.length = m) (hne : rows ≠ []) :
    (rows.headD []).length = m := by
  obtain ⟨r, t, rfl⟩ := List.exists_cons_of_ne_nil hne
  exact hrect r (List.mem_cons_self r t)

lemma toFinset_map_eq {α β : Type} [DecidableEq α] [DecidableEq β] (l : List α)
    (f : α → β) : (l.map f).toFinset = l.toFinset.image f := by
  ext b
  simp

lemma count_map_of_injOn {α : Type} [BEq α] [LawfulBEq α] [DecidableEq α] {l : List α} {f : α → α}
    {c : α} (h : ∀ a ∈ l, f a = f c → a = c) :
    (l.map f).count (f c) = l.count c := by
  induction l with
  | nil => simp
  | cons a t ih =>
    rw [List.map_cons, List.count_cons, List.count_cons,
      ih (fun b hb hbc => h b (List.mem_cons_of_mem a hb) hbc)]
    congr 1
    by_cases hac : a = c
    · subst hac; simp
    · have h1 : ¬ f a = f c := fun he => hac (h a (List.mem_cons_self a t) he)
      simp [beq_iff_eq, h1, hac]

/-- C8: `logLikeDisc` is invariant under any permutation of the selected rows
(the result depends on the composite-category composition of the columns, not
on the order of the rows). -/
theorem logLikeDisc_row_perm (lg : ℝ → ℝ) (maf : ℝ) (rows : List (List ℕ))
    (m : ℕ) (hrect : ∀ r ∈ rows, r.length = m) (σ : Equiv.Perm (Fin rows.length)) :
    logLikeDisc lg maf (List.ofFn (fun i => rows.get (σ i))) = logLikeDisc lg maf rows := by
  by_cases h0 : rows = []
  · subst h0
    have he : (List.ofFn fun i : Fin (List.length ([] : List (List ℕ))) =>
        ([] : List (List ℕ)).get (σ i)) = [] := by
      apply List.length_eq_zero.mp
      simp
    rw [he]
  · have hwidth : (rows.headD []).length = m := headD_width rows m hrect h0
    have hne2 : (List.ofFn fun i => rows.get (σ i)) ≠ [] := by
      intro he
      have hlen := congrArg List.length he
      simp only [List.length_ofFn, List.length_nil] at hlen
      exact h0 (List.length_eq_zero.mp hlen)
    have hrect2 : ∀ r ∈ (List.ofFn fun i => rows.get (σ i)), r.length = m := by
      intro r hr
      rw [List.mem_ofFn] at hr
      obtain ⟨i, hi⟩ := hr
      rw [← hi]
      exact hrect _ (List.get_mem rows _ _)
    have hwidth2 : ((List.ofFn fun i => rows.get (σ i)).headD []).length = m :=
      headD_width _ m hrect2 hne2
    have hlen_cat : ∀ c ∈ categories rows, c.length = rows.length := by
      intro c hc
      rw [categories, List.mem_map] at hc
      obtain ⟨j, _, hj⟩ := hc
      rw [← hj, categoryAt, List.length_map]
    have hcat : categories (List.ofFn fun i => rows.get (σ i))
        = (categories rows).map
            (fun t => List.ofFn (fun i : Fin rows.length => t.getD (σ i).val 0)) := by
      rw [categories, categories, hwidth, hwidth2, List.map_map]
      congr 1
      funext j
      simp only [Function.comp_apply, categoryAt, List.map_ofFn]
      congr 1
      funext i
      simp only [Function.comp_apply]
      rw [getD_map (fun r => r.getD j 0) rows (σ i).val (σ i).isLt]
    have hinj : ∀ a ∈ (categories rows).toFinset, ∀ b ∈ (categories rows).toFinset,
        (fun t => List.ofFn (fun i : Fin rows.length => t.getD (σ i).val 0)) a
          = (fun t => List.ofFn (fun i : Fin rows.length => t.getD (σ i).val 0)) b
          → a = b := by
      intro a ha b hb h
      simp only [] at h
      rw [List.mem_toFinset] at ha hb
      have hla := hlen_cat a ha
      have hlb := hlen_cat b hb
      apply List.ext_getElem (by rw [hla, hlb])
      intro i h1 h2
      have hi : i < rows.length := hla ▸ h1
      have he := congrArg (fun l : List ℕ => l.getD (σ.symm ⟨i, hi⟩).val 0) h
      simp only [] at he
      rw [getD_ofFn _ _ (σ.symm ⟨i, hi⟩).isLt, getD_ofFn _ _ (σ.symm ⟨i, hi⟩).isLt] at he
      simp only [Fin.eta, Equiv.apply_symm_apply] at he
      rw [List.getD_eq_getElem _ _ h1, List.getD_eq_getElem _ _ h2] at he
      exact he
    have halpha : ∀ c ∈ (categories rows).toFinset,
        categoryAlpha maf (List.ofFn (fun i : Fin rows.length => c.getD (σ i).val 0))
          = categoryAlpha maf c := by
      intro c hc
      rw [List.mem_toFinset] at hc
      have hlc := hlen_cat c hc
      rw [categoryAlpha, categoryAlpha, List.map_ofFn, List.prod_ofFn, prod_map_getD]
      simp only [Function.comp_apply]
      rw [Equiv.prod_comp σ
        (fun i : Fin rows.length => genotypeOdds maf (c.getD i.val 0 - 1))]
      rw [Fin.prod_univ_eq_prod_range
          (fun k => genotypeOdds maf (c.getD k 0 - 1)) rows.length,
        Fin.prod_univ_eq_prod_range
          (fun k => genotypeOdds maf (c.getD k 0 - 1)) c.length, hlc]
    have hcount : ∀ c ∈ (categories rows).toFinset,
        ((categories rows).map
            (fun t => List.ofFn (fun i : Fin rows.length => t.getD (σ i).val 0))).count
            (List.ofFn (fun i : Fin rows.length => c.getD (σ i).val 0))
          = (categories rows).count c := by
      intro c hc
      exact count_map_of_injOn
        (f := fun t => List.ofFn (fun i : Fin rows.length => t.getD (σ i).val 0))
        (l := categories rows) (c := c)
        (fun a ha he => hinj a (List.mem_toFinset.mpr ha) c hc he)
    rw [logLikeDisc_finset, logLikeDisc_finset, hcat, toFinset_map_eq,
      Finset.sum_image hinj, Finset.sum_image hinj]
    congr 1
    · apply Finset.sum_congr rfl
      intro c hc
      rw [hcount c hc, halpha c hc]
    · congr 1
      apply Finset.sum_congr rfl
      intro c hc
      rw [hcount c hc, halpha c hc]

/-- Witness for C8: swapping the two rows of a concrete selection. -/
theorem logLikeDisc_row_perm_witness :
    (∀ r ∈ [[1, 2], [2, 1]], r.length = 2)
    ∧ logLikeDisc id (1 / 2)
        (List.ofFn (fun i => ([[1, 2], [2, 1]] : List (List ℕ)).get
          ((Equiv.swap (⟨0, by decide⟩ : Fin ([[1, 2], [2, 1]] : List (List ℕ)).length)
            ⟨1, by decide⟩) i)))
      = logLikeDisc id (1 / 2) [[1, 2], [2, 1]] :=
  ⟨by decide, logLikeDisc_row_perm id (1 / 2) [[1, 2], [2, 1]] 2 (by decide)
    (Equiv.swap ⟨0, by decide⟩ ⟨1, by decide⟩)⟩
